import Mathlib

/-!
Verification development for the 2mqjs client-side toolkit.

This file gives a shallow embedding, in Lean, of the parts of the
repository that the checked properties talk about:

* the path-addressed state operations of the store worker
  (`src/store.worker.ts`: `splitPath`, `getAtPath`, `setAtPath`,
  `deleteAtPath`),
* the port bus (`src/ports.ts`: `emitPort`, `onPort`, `oncePort`,
  `getPortSnapshot`),
* the store coordinator's worker-message handler (`src/store.ts`),
* the task scheduler (`src/tasks.ts`: `registerTask`, `runTasks`,
  `resetTasks`, `runSingle`).

JavaScript values are modelled by an inductive tree `JSVal` in which every
object and array node carries a numeric tag standing for its heap
reference, so that JavaScript `===` on objects/arrays is equality of
tagged trees.  Native exotic behaviour that no modelled operation depends
on (the magic `length` property of arrays, character indexing of string
primitives, prototype lookup) is outside the model: property reads on
primitives yield `undefined`.

Asynchronous code is sequentialized: a `run` effect is modelled by the
predicate "does the k-th invocation succeed", timers are skipped, and a
promise that is never settled is reported as the explicit outcome `hang`.
-/

namespace TwoMq

/-! ### Generic association-list helpers (JavaScript objects / Maps) -/

def lookupA {β : Type} : List (String × β) → String → Option β
  | [], _ => none
  | (k', v) :: r, k => if k' = k then some v else lookupA r k

/-- JavaScript `Map.set` / property assignment: replace in place, else append. -/
def setA {β : Type} : List (String × β) → String → β → List (String × β)
  | [], k, v => [(k, v)]
  | (k', v') :: r, k, v => if k' = k then (k, v) :: r else (k', v') :: setA r k v

/-- JavaScript `delete obj[k]`: the key is gone afterwards. -/
def eraseA {β : Type} (l : List (String × β)) (k : String) : List (String × β) :=
  l.filter (fun e => e.1 != k)

/-! ### List-index helpers (JavaScript array element access) -/

/-- Read index `n`, with default `d` past the end (a JS out-of-range read is
`undefined`). -/
def nthD {β : Type} : List β → Nat → β → β
  | [], _, d => d
  | x :: _, 0, _ => x
  | _ :: r, n + 1, d => nthD r n d

def setNth {β : Type} : List β → Nat → β → List β
  | [], _, _ => []
  | _ :: r, 0, v => v :: r
  | x :: r, n + 1, v => x :: setNth r n v

/-- Extend `l` with copies of `d` so that it has at least `t` entries
(JS assignment past the end creates holes, which read back as `undefined`). -/
def padTo {β : Type} (l : List β) (d : β) (t : Nat) : List β :=
  l ++ List.replicate (t - l.length) d

/-- JS `arr[n] = v`. -/
def listSet {β : Type} (l : List β) (n : Nat) (v : β) (d : β) : List β :=
  setNth (padTo l d (n + 1)) n v

/-- JS `arr.splice(n, 1)`. -/
def spliceRemove {β : Type} (l : List β) (n : Nat) : List β :=
  l.take n ++ l.drop (n + 1)

/-! ### Decimal rendering of numeric keys (JS `String(n)` for a Nat index)

JavaScript property access stringifies numeric keys (`obj[7]` reads
property `"7"`), and `deleteAtPath` joins already-converted segments back
into a dot path, rendering numeric segments in decimal. -/

def digitChar (d : Nat) : Char :=
  match d with
  | 0 => '0' | 1 => '1' | 2 => '2' | 3 => '3' | 4 => '4'
  | 5 => '5' | 6 => '6' | 7 => '7' | 8 => '8' | _ => '9'

def natDigits (n : Nat) : List Char :=
  if n < 10 then [digitChar n]
  else natDigits (n / 10) ++ [digitChar (n % 10)]
  decreasing_by exact Nat.div_lt_self (by omega) (by omega)

def natKey (n : Nat) : String := ⟨natDigits n⟩

def charVal (c : Char) : Nat := c.toNat - 48

/-- `Number(s)` for a string of decimal digits, via its character list. -/
def digitsVal (l : List Char) : Nat := l.foldl (fun a c => a * 10 + charVal c) 0

/-! ### Path segments (`splitPath` of `src/store.worker.ts`)

`splitPath` splits the dot path and converts purely numeric segments with
`Number`, so a segment is either a string key or a numeric array index. -/

inductive PathSeg where
  | key (s : String)
  | idx (n : Nat)
deriving DecidableEq, Repr

/-- The regular-expression test `/^\d+$/` of the source, on the character
list of the segment. -/
def isDigits (s : String) : Bool := !s.data.isEmpty && s.data.all Char.isDigit

/-- Segment conversion inside `splitPath`: `/^\d+$/.test(p) ? Number(p) : p`. -/
def toSeg (s : String) : PathSeg :=
  if isDigits s then .idx (digitsVal s.data) else .key s

/-- JavaScript `String.prototype.split('.')` over the character list:
splitting the empty string gives `[""]`, and empty segments between
consecutive dots are kept. -/
def splitDot : List Char → List (List Char)
  | [] => [[]]
  | c :: r =>
    let rest := splitDot r
    if c = '.' then [] :: rest
    else
      match rest with
      | [] => [[c]]
      | x :: xs => (c :: x) :: xs

/-- `path.split('.').map(conversion)`. -/
def splitPath (p : String) : List PathSeg :=
  (splitDot p.data).map (fun cs => toSeg ⟨cs⟩)

/-- The string a segment denotes as a JS property key (numeric keys
stringify). -/
def segKeyStr : PathSeg → String
  | .key s => s
  | .idx n => natKey n

/-- Segments produced by `splitPath` re-parse to themselves. -/
def Canon (k : PathSeg) : Prop := toSeg (segKeyStr k) = k

/-! ### JavaScript value trees

Object and array nodes carry a numeric tag standing for the heap
reference, so equality of `JSVal` trees is JavaScript `===` (reference
equality on containers, value equality on primitives).  Arrays carry
their element list plus the non-index string properties that JS allows on
array objects. -/

inductive JSVal where
  | vUndefined : JSVal
  | vNull : JSVal
  | vBool : Bool → JSVal
  | vNum : Int → JSVal
  | vStr : String → JSVal
  | vObj : Nat → List (String × JSVal) → JSVal
  | vArr : Nat → List JSVal → List (String × JSVal) → JSVal

def isNullish : JSVal → Bool
  | .vNull => true
  | .vUndefined => true
  | _ => false

/-- The source's `isObject`: a non-null, non-array object. -/
def isObject : JSVal → Bool
  | .vObj _ _ => true
  | _ => false

def nodeIdOf : JSVal → Option Nat
  | .vObj i _ => some i
  | .vArr i _ _ => some i
  | _ => none

/-- JS property read `cur[k]` on a non-nullish value.  Numeric keys on
plain objects read the stringified property; out-of-range array reads and
reads on primitives give `undefined` (native string/array exotics such as
`length` are outside the model). -/
def getProp : JSVal → PathSeg → JSVal
  | .vObj _ fs, k => (lookupA fs (segKeyStr k)).getD .vUndefined
  | .vArr _ es _, .idx n => nthD es n .vUndefined
  | .vArr _ _ ps, .key s => (lookupA ps s).getD .vUndefined
  | _, _ => .vUndefined

/-- JS optional read `cur?.[k]`. -/
def optIndex (cur : JSVal) (k : PathSeg) : JSVal :=
  if isNullish cur then .vUndefined else getProp cur k

/-- JS property write `copy[k] = v`.  Writing to an array index past the
end pads with holes; writing on a primitive is a no-op for the value
(never reached by the modelled code, whose copies are containers). -/
def setProp : JSVal → PathSeg → JSVal → JSVal
  | .vObj i fs, k, v => .vObj i (setA fs (segKeyStr k) v)
  | .vArr i es ps, .idx n, v => .vArr i (listSet es n v .vUndefined) ps
  | .vArr i es ps, .key s, v => .vArr i es (setA ps s v)
  | c, _, _ => c

/-- The loop body of `getAtPath`: `if (cur == null) return undefined;
cur = cur[k];`. -/
def getParts : JSVal → List PathSeg → JSVal
  | cur, [] => cur
  | cur, k :: rest => if isNullish cur then .vUndefined else getParts (getProp cur k) rest

def getAtPath (obj : JSVal) (path : String) : JSVal :=
  getParts obj (splitPath path)

/-- JS `??`: take the default on `null`/`undefined`. -/
def coalesce (x d : JSVal) : JSVal := if isNullish x then d else x

/-- The default container `typeof parts[i+1] === 'number' ? [] : {}`. -/
def defaultFor (next : PathSeg) (fid : Nat) : JSVal :=
  match next with
  | .idx _ => .vArr fid [] []
  | .key _ => .vObj fid []

/-- The per-level copy of `setAtPath`:
`Array.isArray(cur) ? cur.slice() : isObject(cur) ? {...cur} :
typeof key === 'number' ? [] : {}`.
`slice` copies the elements but not custom string properties.  The copy is
a fresh container and receives the fresh tag `fid`. -/
def copyForSet (cur : JSVal) (k : PathSeg) (fid : Nat) : JSVal :=
  match cur with
  | .vArr _ es _ => .vArr fid es []
  | .vObj _ fs => .vObj fid fs
  | _ =>
    match k with
    | .idx _ => .vArr fid [] []
    | .key _ => .vObj fid []

/-- First pass of `setAtPath`: walk the path, building the stack of
`[copy-with-key-assigned, key]` pairs.  `base` is the first fresh node
tag; the copy at depth `i` gets tag `base + i`, and the transient default
containers (dead values, overwritten by the second pass) get tags from
`base + len` upward.  `cur` advances by `cur = cur?.[key]`. -/
def buildStack (value : JSVal) (base len : Nat) :
    JSVal → Nat → List PathSeg → List (JSVal × PathSeg)
  | _, _, [] => []
  | cur, i, k :: rest =>
    let next : JSVal :=
      match rest with
      | [] => value
      | k2 :: _ => coalesce (optIndex cur k) (defaultFor k2 (base + len + i))
    let copy := copyForSet cur k (base + i)
    (setProp copy k next, k) :: buildStack value base len (optIndex cur k) (i + 1) rest

/-- Second pass of `setAtPath`: `stack[i][0][key] = stack[i+1][0]` from the
bottom up, returning the root copy. -/
def linkStack : JSVal × PathSeg → List (JSVal × PathSeg) → JSVal
  | (c, _), [] => c
  | (c, k), e :: rest => setProp c k (linkStack e rest)

/-- `setAtPath` on an already-split segment list:
`return stack.length ? stack[0][0] : value`. -/
def setParts (root : JSVal) (parts : List PathSeg) (value : JSVal) (base : Nat) : JSVal :=
  match buildStack value base parts.length root 0 parts with
  | [] => value
  | e :: rest => linkStack e rest

def setAtPath (root : JSVal) (path : String) (value : JSVal) (base : Nat) : JSVal :=
  setParts root (splitPath path) value base

/-- JavaScript `Array.prototype.join('.')`. -/
def joinStrs : List String → String
  | [] => ""
  | [s] => s
  | s :: r => s ++ "." ++ joinStrs r

/-- Join segments back into a dot path: `parts.slice(0, -1).join('.')`
(numeric segments render in decimal, as JS `String(n)` does). -/
def joinSegs (segs : List PathSeg) : String :=
  joinStrs (segs.map segKeyStr)

/-- The `{...parent}` spread of `deleteAtPath` when the parent is not an
array: objects keep their fields; spreading a primitive gives an empty
object.  (Spreading a string primitive would give character-indexed
fields; no modelled property survives along such a path, and the claims
never read them, so the spread of a primitive is the empty object.) -/
def spreadCopy (v : JSVal) (fid : Nat) : JSVal :=
  match v with
  | .vObj _ fs => .vObj fid fs
  | _ => .vObj fid []

/-- The parent node `deleteAtPath` reads:
`parentPath ? getAtPath(root, parentPath) : root`, where `parentPath` is
the re-joined front of the path. -/
def delParentOf (root : JSVal) (path : String) : JSVal :=
  let front := (splitPath path).dropLast
  if joinSegs front = "" then root else getParts root front

/-- The parent copy of `deleteAtPath`:
`Array.isArray(parent) ? parent.slice() : {...parent}`.
(Here the array `slice` keeps the non-index properties too, matching the
source only up to array string-properties, which are absent in the
JSON-like trees the claims quantify over.) -/
def delCopy (parent : JSVal) (base : Nat) : JSVal :=
  match parent with
  | .vArr _ es ps => .vArr base es ps
  | other => spreadCopy other base

/-- The removal on the copy:
`Array.isArray(copy) && typeof last === 'number' ? copy.splice(last, 1)
: delete copy[last]`. -/
def delApply (copy : JSVal) (lastSeg : PathSeg) : JSVal :=
  match copy, lastSeg with
  | .vArr i es ps, .idx n => .vArr i (spliceRemove es n) ps
  | .vArr i es ps, .key s => .vArr i es (eraseA ps s)
  | .vObj i fs, k => .vObj i (eraseA fs (segKeyStr k))
  | c, _ => c

/-- `deleteAtPath` of `src/store.worker.ts`.  The source joins the parent
segments back into a string and re-splits it inside `getAtPath` /
`setAtPath`; since segments produced by `splitPath` contain no dot and
numeric segments re-render canonically, that round trip is the identity on
the segment list, and the parent lookup / final write are performed on the
segments directly.  The empty-join tests mirror the source's
`parentPath ? ... : ...` checks exactly. -/
def deleteAtPath (root : JSVal) (path : String) (base : Nat) : JSVal :=
  let parts := splitPath path
  match parts.getLast? with
  | none => root
  | some lastSeg =>
    let front := parts.dropLast
    let parent := delParentOf root path
    if isNullish parent then root
    else
      let copy2 := delApply (delCopy parent base) lastSeg
      if joinSegs front = "" then copy2 else setParts root front copy2 (base + 1)

/-! ### Basic facts about property reads, writes and copies -/

def isContainer : JSVal → Bool
  | .vObj _ _ => true
  | .vArr _ _ _ => true
  | _ => false

/-! ### The JSON-tree well-formedness used for structural sharing

`arrPF` states that no array node carries custom string properties, which
holds for every JSON-serializable tree (the store state is JSON data). -/

mutual

def arrPF : JSVal → Bool
  | .vObj _ fs => arrPFF fs
  | .vArr _ es ps => ps.isEmpty && arrPFL es
  | _ => true

def arrPFF : List (String × JSVal) → Bool
  | [] => true
  | (_, v) :: r => arrPF v && arrPFF r

def arrPFL : List JSVal → Bool
  | [] => true
  | v :: r => arrPF v && arrPFL r

end

/-! ### The two-pass stack of `setAtPath`, from an arbitrary depth -/

/-- The value `setAtPath` would return when its loop starts at depth `i`
with current node `cur` and remaining segments `parts`. -/
def stackResult (value : JSVal) (base len : Nat) (cur : JSVal) (i : Nat)
    (parts : List PathSeg) : JSVal :=
  match buildStack value base len cur i parts with
  | [] => value
  | e :: rest => linkStack e rest

/-! ### Node tags occurring in a tree (the set of live heap references) -/

mutual

def idsIn : JSVal → List Nat
  | .vObj i fs => i :: idsInF fs
  | .vArr i es ps => i :: (idsInL es ++ idsInF ps)
  | _ => []

def idsInF : List (String × JSVal) → List Nat
  | [] => []
  | (_, v) :: r => idsIn v ++ idsInF r

def idsInL : List JSVal → List Nat
  | [] => []
  | v :: r => idsIn v ++ idsInL r

end

/-! ## The port bus (`src/ports.ts`)

The bus state is the singleton `{listeners, last}` plus a chronological
trace of user-callback invocations.  Callbacks are identified by numeric
ids; the wrapper closure that `oncePort` builds around a user callback is
its own listener identity (`CB.onceWrap`).  The worker fan-out of
`emitPort` (`workers.forEach(w => w.postMessage({port, payload}))`) is an
external effect with no bearing on the bus state and is outside the
model.  Payloads have an arbitrary type `α`. -/

inductive CB where
  | user (uid : Nat)
  | onceWrap (uid : Nat)
deriving DecidableEq, Repr

structure PortsState (α : Type) where
  listeners : List (String × List CB)
  last : List (String × α)
  calls : List (Nat × α)

def emptyPorts (α : Type) : PortsState α := ⟨[], [], []⟩

/-- `Set.add`: a no-op when the callback is already subscribed; otherwise
appended (a JS `Set` iterates in insertion order). -/
def addListener (l : List CB) (cb : CB) : List CB :=
  if l.contains cb then l else l ++ [cb]

/-- The unsubscribe closure returned by `onPort`:
`listeners.get(port).delete(cb)`. -/
def removeListener {α : Type} (ps : PortsState α) (port : String) (cb : CB) :
    PortsState α :=
  { ps with
    listeners := setA ps.listeners port
      (((lookupA ps.listeners port).getD []).filter (fun c => c != cb)) }

/-- Invoke one listener during `emitPort`.  A plain subscriber records a
user-callback invocation.  A `oncePort` wrapper runs
`if (off) off(); cb(data);` — by emit time its `off` closure has been
assigned, so it unsubscribes itself and then invokes the user callback. -/
def invokeEmit {α : Type} (ps : PortsState α) (port : String) (cb : CB) (payload : α) :
    PortsState α :=
  match cb with
  | .user u => { ps with calls := ps.calls ++ [(u, payload)] }
  | .onceWrap u =>
    let ps2 := removeListener ps port cb
    { ps2 with calls := ps2.calls ++ [(u, payload)] }

/-- `emitPort`: record the payload as the port's last value, then invoke
every currently subscribed listener in insertion order. -/
def emitPort {α : Type} (ps : PortsState α) (port : String) (payload : α) : PortsState α :=
  let ps1 := { ps with last := setA ps.last port payload }
  ((lookupA ps1.listeners port).getD []).foldl
    (fun acc cb => invokeEmit acc port cb payload) ps1

/-- `onPort` with the default `replay = true`: register the callback, then,
if a last value exists for the port, invoke the callback synchronously with
it.  When the callback is the `oncePort` wrapper, its `off` binding is
still `null` during this synchronous replay — the assignment
`off = onPort(port, wrapper)` only happens after `onPort` returns — so the
wrapper's `if (off) off()` does nothing and it stays subscribed. -/
def onPort {α : Type} (ps : PortsState α) (port : String) (cb : CB) : PortsState α :=
  let ps1 :=
    { ps with
      listeners := setA ps.listeners port
        (addListener ((lookupA ps.listeners port).getD []) cb) }
  match lookupA ps1.last port with
  | none => ps1
  | some v =>
    match cb with
    | .user u => { ps1 with calls := ps1.calls ++ [(u, v)] }
    | .onceWrap u => { ps1 with calls := ps1.calls ++ [(u, v)] }

/-- `oncePort(port, cb)`: subscribe the self-unsubscribing wrapper built
around the user callback `uid`. -/
def oncePort {α : Type} (ps : PortsState α) (port : String) (uid : Nat) : PortsState α :=
  onPort ps port (.onceWrap uid)

def getPortSnapshot {α : Type} (ps : PortsState α) (port : String) : Option α :=
  lookupA ps.last port

/-! ## The store coordinator's bus republishing (`src/store.ts`) -/

/-- The store state channel name: `` `2mqjs:store:${name}:state` ``. -/
def portNameState (name : String) : String := "2mqjs:store:" ++ name ++ ":state"

/-- Outbound messages of the store subprocess. -/
inductive WorkerOut (α : Type) where
  | state (s : α)
  | ready
  | persistLsSet (storageKey : String) (json : String)
  | error (message : String)

/-- The coordinator's worker-message listener, restricted to its effect on
the port bus: a full-state broadcast is republished on the store's state
channel; `ready` resolves the ready promise, `persist:ls:set` writes to
localStorage and `error` logs to the console — none of which touch the
bus. -/
def handleWorkerMessage {α : Type} (name : String) (ps : PortsState α) (msg : WorkerOut α) :
    PortsState α :=
  match msg with
  | .state s => emitPort ps (portNameState name) s
  | _ => ps

/-! ## The task scheduler (`src/tasks.ts`)

Asynchronous execution is sequentialized.  A task's `run` effect is
abstracted by the predicate `runOk k` — whether the k-th invocation of its
`run` (counted per task id across the whole history) resolves — and a
`when` condition by the boolean it eventually resolves to (`none` for a
task with no `when` field).  The retry backoff timer is a pure delay and
is skipped.  The outcome `hang` stands for a promise that never settles:
the source has code paths that neither resolve nor reject the
deduplication promise of `runSingle`. -/

structure Task where
  id : String
  stage : Option String := none
  priority : Option Int := none
  deps : List String := []
  whenB : Option Bool := none
  runOk : Nat → Bool := fun _ => true
  retry : Option Nat := none

inductive TOut where
  | ok
  | err
  | hang
deriving DecidableEq, Repr

inductive ROut where
  | resolved
  | rejected
  | pending
deriving DecidableEq, Repr

/-- The singleton scheduler state: the task map, the permanent `done` set,
the in-flight markers held in `cache`, the `running` flag, plus the ghost
trace `runCount` counting the `run` invocations of each task id. -/
structure TaskSt where
  tasks : List (String × Task)
  done : List String
  inflight : List String
  running : Bool
  runCount : String → Nat

/-- `registerTask`: `tasks.set(task.id, task)`. -/
def registerTask (st : TaskSt) (t : Task) : TaskSt :=
  { st with tasks := setA st.tasks t.id t }

/-- `resetTasks`: clears `done` and the cache (whose only entries are the
in-flight markers). -/
def resetTasks (st : TaskSt) : TaskSt :=
  { st with done := [], inflight := [] }

/-- The retry loop around `await t.run()`: invoke `run`; on success stop;
on failure, while the budget lasts, wait the fixed backoff (skipped here)
and retry with the budget decremented; on exhaustion the error propagates.
Returns how many times `run` was invoked and whether it eventually
succeeded; `k` is the number of invocations this task has seen before. -/
def attemptLoop (runOk : Nat → Bool) : Nat → Nat → Nat × Bool
  | 0, k => if runOk k then (1, true) else (1, false)
  | a + 1, k =>
    if runOk k then (1, true)
    else
      let r := attemptLoop runOk a (k + 1)
      (r.1 + 1, r.2)

/-- How `Promise.all` settles, given two member outcomes: any rejection
rejects it (even if another member is pending forever); otherwise any
pending member keeps it pending; otherwise it resolves. -/
def combineAll : TOut → TOut → TOut
  | .err, _ => .err
  | _, .err => .err
  | .hang, _ => .hang
  | _, .hang => .hang
  | .ok, .ok => .ok

/-- `runSingle`, sequentialized, with a fuel bound on the recursion depth
(the claims instantiate it with enough fuel; exhausted fuel reports
`hang`).  Source behaviours carried over faithfully:

* an id already in `done` resolves immediately;
* an id already in flight awaits the existing promise — which, in a
  sequentialized execution, can only belong to an enclosing `runSingle` of
  the same id (a dependency cycle), so the await deadlocks;
* an unregistered id is marked done and resolves;
* dependency resolution starts every dependency (as the mapped
  `Promise.all` does) and each runs to its own settlement; if any of them
  rejects, the exception from `await Promise.all` escapes the inner async
  closure before `resolveInflight` or `rejectInflight` ever runs, so the
  promise `runSingle` returned never settles: the `finally` still clears
  the in-flight cache entry, but the outer `await inflight` hangs;
* if a dependency itself hangs, the inner closure stays parked at the
  `await`, the `finally` never runs, and the in-flight marker remains;
* a `when` condition that resolved to false resolves the promise without
  marking done;
* the retry loop marks done and resolves on success, and rejects the
  in-flight promise on exhaustion (so the caller sees the error). -/
def runSingleF : Nat → TaskSt → String → TaskSt × TOut
  | 0, st, _ => (st, .hang)
  | fuel + 1, st, id =>
    if st.done.contains id then (st, .ok)
    else if st.inflight.contains id then (st, .hang)
    else
      let st1 := { st with inflight := id :: st.inflight }
      match lookupA st1.tasks id with
      | none =>
        ({ st1 with done := id :: st1.done,
                    inflight := st1.inflight.filter (fun x => x != id) }, .ok)
      | some t =>
        let dres := t.deps.foldl
          (fun (acc : TaskSt × TOut) d =>
            let r := runSingleF fuel acc.1 d
            (r.1, combineAll acc.2 r.2))
          (st1, .ok)
        match dres.2 with
        | .err =>
          ({ dres.1 with inflight := dres.1.inflight.filter (fun x => x != id) }, .hang)
        | .hang => (dres.1, .hang)
        | .ok =>
          if t.whenB = some false then
            ({ dres.1 with inflight := dres.1.inflight.filter (fun x => x != id) }, .ok)
          else
            let al := attemptLoop t.runOk (t.retry.getD 0) (dres.1.runCount id)
            let stR := { dres.1 with
              runCount := fun x =>
                if x = id then dres.1.runCount x + al.1 else dres.1.runCount x }
            if al.2 then
              ({ stR with done := t.id :: stR.done,
                          inflight := stR.inflight.filter (fun x => x != id) }, .ok)
            else
              ({ stR with inflight := stR.inflight.filter (fun x => x != id) }, .err)

def prioOf (t : Task) : Int := t.priority.getD 0

/-- Stable insertion sort by ascending `priority ?? 0` (ES2019
`Array.prototype.sort` is stable). -/
def insertByPrio (t : Task) : List Task → List Task
  | [] => [t]
  | u :: r => if prioOf t ≤ prioOf u then t :: u :: r else u :: insertByPrio t r

def sortByPrio : List Task → List Task
  | [] => []
  | t :: r => insertByPrio t (sortByPrio r)

/-- The stage filter of `runTasks`: `stage ? t.stage === stage : true`. -/
def stageMatch (stage : Option String) (t : Task) : Bool :=
  match stage with
  | none => true
  | some s => t.stage == some s

/-- How `await Promise.all(...)` plus the `finally` resetting the
`running` flag settles the batch: rejected as soon as any task rejects —
even if another hangs — pending forever if none rejects but some hangs (in
which case the `finally` never runs and `running` stays set), resolved
otherwise. -/
def settleBatch (folded : TaskSt × List TOut) : TaskSt × ROut :=
  let res : ROut :=
    if folded.2.contains .err then .rejected
    else if folded.2.contains .hang then .pending
    else .resolved
  (if res = .pending then folded.1 else { folded.1 with running := false }, res)

/-- `runTasks(stage?)`: throw immediately when a batch is already running;
otherwise set the flag, select by stage, sort by priority, run every
selected task (their executions sequentialized in start order) and settle
the batch like `Promise.all`. -/
def runTasksF (fuel : Nat) (st : TaskSt) (stage : Option String) : TaskSt × ROut :=
  if st.running then (st, .rejected)
  else
    settleBatch
      ((sortByPrio ((st.tasks.map Prod.snd).filter (stageMatch stage))).foldl
        (fun (acc : TaskSt × List TOut) t =>
          ((runSingleF fuel acc.1 t.id).1, acc.2 ++ [(runSingleF fuel acc.1 t.id).2]))
        ({ st with running := true }, ([] : List TOut)))

/-- The concrete failing configuration for C1: task `A` of stage `main`
depends on `B`; `B` is registered under stage `other` with no retries and
a `run` that always throws. -/
def c1TaskA : Task := { id := "A", stage := some "main", deps := ["B"] }

def c1TaskB : Task := { id := "B", stage := some "other", runOk := fun _ => false }

def c1St : TaskSt := ⟨[("A", c1TaskA), ("B", c1TaskB)], [], [], false, fun _ => 0⟩

/-- The single-task scheduler state for C6: one registered task with the
given retry budget, fresh `done`/cache, not running. -/
def c6St (id : String) (prio : Option Int) (wb : Option Bool) (runOk : Nat → Bool)
    (n : Nat) : TaskSt :=
  ⟨[(id, { id := id, priority := prio, whenB := wb, runOk := runOk, retry := some n })],
    [], [], false, fun _ => 0⟩

/-! # Theorems -/

theorem lookupA_setA_self {β : Type} (l : List (String × β)) (k : String) (v : β) :
    lookupA (setA l k v) k = some v := by
  induction l with
  | nil => simp [setA, lookupA]
  | cons e r ih =>
    by_cases h : e.1 = k
    · simp [setA, h, lookupA]
    · simp only [setA, h, if_false]
      simpa [lookupA, h] using ih

theorem lookupA_setA_ne {β : Type} (l : List (String × β)) (k k2 : String) (v : β)
    (h : k ≠ k2) : lookupA (setA l k v) k2 = lookupA l k2 := by
  induction l with
  | nil => simp [setA, lookupA, h]
  | cons e r ih =>
    by_cases he : e.1 = k
    · simp [setA, he, lookupA, h, he ▸ h]
    · simp only [setA, he, if_false]
      by_cases he2 : e.1 = k2
      · simp [lookupA, he2]
      · simpa [lookupA, he2] using ih

theorem lookupA_eraseA_self {β : Type} (l : List (String × β)) (k : String) :
    lookupA (eraseA l k) k = none := by
  induction l with
  | nil => simp [eraseA, lookupA]
  | cons e r ih =>
    by_cases h : e.1 = k
    · simpa [eraseA, List.filter_cons, h] using ih
    · simpa [eraseA, List.filter_cons, bne_iff_ne, h, lookupA] using ih

theorem nthD_padTo {β : Type} (l : List β) (d : β) (t : Nat) (m : Nat) :
    nthD (padTo l d t) m d = nthD l m d := by
  induction l generalizing m t with
  | nil =>
    induction t generalizing m with
    | zero => simp [padTo, nthD]
    | succ t ih =>
      cases m with
      | zero => simp [padTo, List.replicate, nthD]
      | succ m =>
        have := ih (m := m)
        simpa [padTo, List.replicate, nthD] using this
  | cons x r ih =>
    cases m with
    | zero => simp [padTo, nthD]
    | succ m =>
      cases t with
      | zero => simp [padTo, nthD]
      | succ t => simpa [padTo, nthD, Nat.succ_sub_succ] using ih (m := m) (t := t)

theorem padTo_length {β : Type} (l : List β) (d : β) (t : Nat) :
    t ≤ (padTo l d t).length := by
  simp only [padTo, List.length_append, List.length_replicate]
  omega

theorem nthD_setNth_self {β : Type} (l : List β) (n : Nat) (v d : β)
    (h : n < l.length) : nthD (setNth l n v) n d = v := by
  induction l generalizing n with
  | nil => simp at h
  | cons x r ih =>
    cases n with
    | zero => simp [setNth, nthD]
    | succ n =>
      simp only [setNth, nthD]
      exact ih n (by simpa using h)

theorem nthD_setNth_ne {β : Type} (l : List β) (n m : Nat) (v d : β)
    (h : m ≠ n) : nthD (setNth l n v) m d = nthD l m d := by
  induction l generalizing n m with
  | nil => simp [setNth]
  | cons x r ih =>
    cases n with
    | zero =>
      cases m with
      | zero => exact absurd rfl h
      | succ m => simp [setNth, nthD]
    | succ n =>
      cases m with
      | zero => simp [setNth, nthD]
      | succ m => simpa [setNth, nthD] using ih n m (fun hc => h (by omega))

theorem nthD_listSet_self {β : Type} (l : List β) (n : Nat) (v d : β) :
    nthD (listSet l n v d) n d = v :=
  nthD_setNth_self _ _ _ _ (Nat.lt_of_lt_of_le (Nat.lt_succ_self n) (padTo_length l d (n + 1)))

theorem nthD_listSet_ne {β : Type} (l : List β) (n m : Nat) (v d : β) (h : m ≠ n) :
    nthD (listSet l n v d) m d = nthD l m d := by
  rw [listSet, nthD_setNth_ne _ _ _ _ _ h, nthD_padTo]

theorem nthD_spliceRemove_last {β : Type} (l : List β) (n : Nat) (d : β)
    (h : l.length ≤ n + 1) : nthD (spliceRemove l n) n d = d := by
  induction l generalizing n with
  | nil => cases n <;> simp [spliceRemove, nthD]
  | cons x r ih =>
    cases n with
    | zero =>
      have : r = [] := by
        cases r with
        | nil => rfl
        | cons y t => simp at h
      simp [spliceRemove, this, nthD]
    | succ n =>
      have := ih (n := n) (by simpa using h)
      simpa [spliceRemove, nthD] using this

theorem charVal_digitChar (d : Nat) (h : d < 10) : charVal (digitChar d) = d := by
  interval_cases d <;> rfl

theorem isDigit_digitChar (d : Nat) (h : d < 10) : (digitChar d).isDigit = true := by
  interval_cases d <;> rfl

theorem digitsVal_append_singleton (l : List Char) (c : Char) :
    digitsVal (l ++ [c]) = digitsVal l * 10 + charVal c := by
  simp [digitsVal, List.foldl_append]

theorem digitsVal_natDigits (n : Nat) : digitsVal (natDigits n) = n := by
  induction n using Nat.strong_induction_on with
  | _ n ih =>
    rw [natDigits]
    by_cases h : n < 10
    · simp [h, digitsVal, charVal_digitChar n h]
    · have hd : n / 10 < n := Nat.div_lt_self (by omega) (by omega)
      rw [if_neg h, digitsVal_append_singleton, ih _ hd,
        charVal_digitChar _ (Nat.mod_lt _ (by omega))]
      omega

theorem natDigits_ne_nil (n : Nat) : natDigits n ≠ [] := by
  rw [natDigits]
  by_cases h : n < 10 <;> simp [h]

theorem natDigits_all_digit (n : Nat) : (natDigits n).all Char.isDigit = true := by
  induction n using Nat.strong_induction_on with
  | _ n ih =>
    rw [natDigits]
    by_cases h : n < 10
    · simp [h, isDigit_digitChar n h]
    · have hd : n / 10 < n := Nat.div_lt_self (by omega) (by omega)
      simp [h, List.all_append, ih _ hd, isDigit_digitChar _ (Nat.mod_lt _ (by omega))]

theorem splitDot_ne_nil (l : List Char) : splitDot l ≠ [] := by
  induction l with
  | nil => simp [splitDot]
  | cons c r ih =>
    rw [splitDot]
    by_cases h : c = '.'
    · simp [h]
    · simp only [h, if_false]
      cases hr : splitDot r with
      | nil => simp
      | cons x xs => simp

theorem splitPath_ne_nil (p : String) : splitPath p ≠ [] := by
  simp [splitPath, splitDot_ne_nil]

theorem isDigits_natKey (n : Nat) : isDigits (natKey n) = true := by
  simp [isDigits, natKey, natDigits_ne_nil n, natDigits_all_digit n,
    List.isEmpty_iff]

theorem digitsVal_natKey (n : Nat) : digitsVal (natKey n).data = n :=
  digitsVal_natDigits n

theorem natKey_injective : Function.Injective natKey := by
  intro a b h
  have := digitsVal_natKey a
  rw [h, digitsVal_natKey] at this
  omega

theorem canon_toSeg (s : String) : Canon (toSeg s) := by
  unfold Canon toSeg
  by_cases h : isDigits s = true
  · simp only [h, if_true, segKeyStr]
    simp [isDigits_natKey, digitsVal_natKey]
  · simp only [Bool.not_eq_true] at h
    simp [h, segKeyStr]

theorem canon_splitPath (p : String) (k : PathSeg) (h : k ∈ splitPath p) : Canon k := by
  simp only [splitPath, List.mem_map] at h
  obtain ⟨cs, _, rfl⟩ := h
  exact canon_toSeg ⟨cs⟩

/-- Distinct canonical segments denote distinct JS property keys. -/
theorem segKeyStr_ne_of_canon {j k : PathSeg} (hj : Canon j) (hk : Canon k)
    (h : j ≠ k) : segKeyStr j ≠ segKeyStr k := by
  intro he
  exact h (by rw [← hj, ← hk, he])

theorem isNullish_of_container {c : JSVal} (h : isContainer c = true) :
    isNullish c = false := by
  cases c <;> simp_all [isContainer, isNullish]

theorem isContainer_setProp (c : JSVal) (k : PathSeg) (v : JSVal) :
    isContainer (setProp c k v) = isContainer c := by
  cases c <;> cases k <;> rfl

theorem nodeIdOf_setProp (c : JSVal) (k : PathSeg) (v : JSVal) :
    nodeIdOf (setProp c k v) = nodeIdOf c := by
  cases c <;> cases k <;> rfl

theorem isContainer_copyForSet (cur : JSVal) (k : PathSeg) (fid : Nat) :
    isContainer (copyForSet cur k fid) = true := by
  cases cur <;> cases k <;> rfl

theorem nodeIdOf_copyForSet (cur : JSVal) (k : PathSeg) (fid : Nat) :
    nodeIdOf (copyForSet cur k fid) = some fid := by
  cases cur <;> cases k <;> rfl

theorem optIndex_container {c : JSVal} (h : isContainer c = true) (k : PathSeg) :
    optIndex c k = getProp c k := by
  simp [optIndex, isNullish_of_container h]

theorem getProp_setProp_self {c : JSVal} (h : isContainer c = true)
    (k : PathSeg) (v : JSVal) : getProp (setProp c k v) k = v := by
  cases c with
  | vObj i fs => cases k <;> simp [setProp, getProp, lookupA_setA_self]
  | vArr i es ps =>
    cases k with
    | key s => simp [setProp, getProp, lookupA_setA_self]
    | idx n => simp [setProp, getProp, nthD_listSet_self]
  | _ => simp [isContainer] at h

theorem getProp_setProp_ne {c : JSVal} {k k2 : PathSeg}
    (h : segKeyStr k ≠ segKeyStr k2) (v : JSVal) :
    getProp (setProp c k v) k2 = getProp c k2 := by
  cases c with
  | vObj i fs => cases k <;> cases k2 <;> simp [setProp, getProp, lookupA_setA_ne _ _ _ _ h]
  | vArr i es ps =>
    cases k with
    | key s =>
      cases k2 with
      | key s2 =>
        have h' : s ≠ s2 := by simpa [segKeyStr] using h
        simp [setProp, getProp, lookupA_setA_ne _ _ _ _ h']
      | idx m => simp [setProp, getProp]
    | idx n =>
      cases k2 with
      | key s2 => simp [setProp, getProp]
      | idx m =>
        have hnm : m ≠ n := by
          intro he
          exact h (by simp [segKeyStr, he])
        simp [setProp, getProp, nthD_listSet_ne _ _ _ _ _ hnm]
  | vUndefined => rfl
  | vNull => rfl
  | vBool b => rfl
  | vNum n => rfl
  | vStr s => rfl

theorem getParts_vUndefined (l : List PathSeg) : getParts .vUndefined l = .vUndefined := by
  cases l <;> simp [getParts, isNullish]

theorem getParts_cons_opt (cur : JSVal) (k : PathSeg) (l : List PathSeg) :
    getParts cur (k :: l) = getParts (optIndex cur k) l := by
  by_cases h : isNullish cur = true
  · rw [getParts, if_pos h]
    simp [optIndex, h, getParts_vUndefined]
  · simp only [Bool.not_eq_true] at h
    rw [getParts, if_neg (by simp [h])]
    simp [optIndex, h]

theorem arrPF_lookupA {fs : List (String × JSVal)} (h : arrPFF fs = true)
    {s : String} {v : JSVal} (hl : lookupA fs s = some v) : arrPF v = true := by
  induction fs with
  | nil => simp [lookupA] at hl
  | cons e r ih =>
    obtain ⟨k', v'⟩ := e
    rw [arrPFF] at h
    simp only [Bool.and_eq_true] at h
    rw [lookupA] at hl
    by_cases he : k' = s
    · rw [if_pos he] at hl
      cases hl
      exact h.1
    · rw [if_neg he] at hl
      exact ih h.2 hl

theorem arrPF_nthD {es : List JSVal} (h : arrPFL es = true) (n : Nat) :
    arrPF (nthD es n .vUndefined) = true := by
  induction es generalizing n with
  | nil => simp [nthD, arrPF]
  | cons v r ih =>
    rw [arrPFL] at h
    simp only [Bool.and_eq_true] at h
    cases n with
    | zero => simpa [nthD] using h.1
    | succ n => simpa [nthD] using ih h.2 n

theorem arrPF_getProp {cur : JSVal} (h : arrPF cur = true) (k : PathSeg) :
    arrPF (getProp cur k) = true := by
  cases cur with
  | vObj i fs =>
    rw [arrPF] at h
    cases hl : lookupA fs (segKeyStr k) with
    | none => simp [getProp, hl, arrPF]
    | some v => simpa [getProp, hl] using arrPF_lookupA h hl
  | vArr i es ps =>
    rw [arrPF] at h
    simp only [Bool.and_eq_true, List.isEmpty_iff] at h
    cases k with
    | key s => simp [getProp, h.1, lookupA, arrPF]
    | idx n => simpa [getProp] using arrPF_nthD h.2 n
  | vUndefined => simp [getProp, arrPF]
  | vNull => simp [getProp, arrPF]
  | vBool b => simp [getProp, arrPF]
  | vNum n => simp [getProp, arrPF]
  | vStr s => simp [getProp, arrPF]

theorem arrPF_optIndex {cur : JSVal} (h : arrPF cur = true) (k : PathSeg) :
    arrPF (optIndex cur k) = true := by
  unfold optIndex
  by_cases hn : isNullish cur = true
  · simp [hn, arrPF]
  · simp only [Bool.not_eq_true] at hn
    simpa [hn] using arrPF_getProp h k

/-- Reading any property of the per-level copy gives exactly the reading of
the original node (`slice` keeps elements, spread keeps fields; the
original's array string-properties are empty by `arrPF`; a primitive copy
is empty and a primitive read is `undefined`). -/
theorem getProp_copyForSet {cur : JSVal} (h : arrPF cur = true)
    (k sib : PathSeg) (fid : Nat) :
    getProp (copyForSet cur k fid) sib = optIndex cur sib := by
  cases cur with
  | vObj i fs => simp [copyForSet, getProp, optIndex, isNullish]
  | vArr i es ps =>
    rw [arrPF] at h
    simp only [Bool.and_eq_true, List.isEmpty_iff] at h
    cases sib with
    | key s => simp [copyForSet, getProp, optIndex, isNullish, h.1, lookupA]
    | idx n => simp [copyForSet, getProp, optIndex, isNullish]
  | vUndefined => cases k <;> cases sib <;> simp [copyForSet, getProp, optIndex, isNullish, lookupA, nthD]
  | vNull => cases k <;> cases sib <;> simp [copyForSet, getProp, optIndex, isNullish, lookupA, nthD]
  | vBool b => cases k <;> cases sib <;> simp [copyForSet, getProp, optIndex, isNullish, lookupA, nthD]
  | vNum n => cases k <;> cases sib <;> simp [copyForSet, getProp, optIndex, isNullish, lookupA, nthD]
  | vStr s => cases k <;> cases sib <;> simp [copyForSet, getProp, optIndex, isNullish, lookupA, nthD]

theorem setParts_eq_stackResult (root : JSVal) (parts : List PathSeg)
    (value : JSVal) (base : Nat) :
    setParts root parts value base = stackResult value base parts.length root 0 parts := rfl

theorem stackResult_nil (value : JSVal) (base len : Nat) (cur : JSVal) (i : Nat) :
    stackResult value base len cur i [] = value := rfl

theorem stackResult_single (value : JSVal) (base len : Nat) (cur : JSVal) (i : Nat)
    (k : PathSeg) :
    stackResult value base len cur i [k] =
      setProp (copyForSet cur k (base + i)) k value := rfl

theorem stackResult_cons (value : JSVal) (base len : Nat) (cur : JSVal) (i : Nat)
    (k k2 : PathSeg) (rr : List PathSeg) :
    stackResult value base len cur i (k :: k2 :: rr) =
      setProp
        (setProp (copyForSet cur k (base + i)) k
          (coalesce (optIndex cur k) (defaultFor k2 (base + len + i))))
        k (stackResult value base len (optIndex cur k) (i + 1) (k2 :: rr)) := by
  show (match buildStack value base len cur i (k :: k2 :: rr) with
        | [] => value
        | e :: rest => linkStack e rest) = _
  conv_lhs => rw [buildStack.eq_def]
  simp only []
  rw [buildStack.eq_def]
  rfl

theorem isContainer_stackResult_cons (value : JSVal) (base len : Nat)
    (cur : JSVal) (i : Nat) (k : PathSeg) (rest : List PathSeg) :
    isContainer (stackResult value base len cur i (k :: rest)) = true := by
  cases rest with
  | nil => rw [stackResult_single, isContainer_setProp]; exact isContainer_copyForSet ..
  | cons k2 rr =>
    rw [stackResult_cons, isContainer_setProp, isContainer_setProp]
    exact isContainer_copyForSet ..

/-- The head property of the built result is the recursively built child
(or the stored value at the last level). -/
theorem getProp_stackResult_head (value : JSVal) (base len : Nat)
    (cur : JSVal) (i : Nat) (k : PathSeg) (rest : List PathSeg) :
    getProp (stackResult value base len cur i (k :: rest)) k =
      stackResult value base len (optIndex cur k) (i + 1) rest := by
  cases rest with
  | nil =>
    rw [stackResult_single, stackResult_nil]
    exact getProp_setProp_self (isContainer_copyForSet ..) _ _
  | cons k2 rr =>
    rw [stackResult_cons]
    exact getProp_setProp_self (by rw [isContainer_setProp]; exact isContainer_copyForSet ..) _ _

/-- Reading back the whole path from a freshly built `setAtPath` stack
returns the stored value. -/
theorem getParts_stackResult (value : JSVal) (base len : Nat) :
    ∀ (parts : List PathSeg) (cur : JSVal) (i : Nat),
      getParts (stackResult value base len cur i parts) parts = value := by
  intro parts
  induction parts with
  | nil => intro cur i; rfl
  | cons k rest ih =>
    intro cur i
    rw [getParts_cons_opt,
      optIndex_container (isContainer_stackResult_cons ..) k,
      getProp_stackResult_head]
    exact ih (optIndex cur k) (i + 1)

/-- C2 core: the set/get round trip over any segment list. -/
theorem getParts_setParts (root : JSVal) (parts : List PathSeg)
    (value : JSVal) (base : Nat) :
    getParts (setParts root parts value base) parts = value := by
  rw [setParts_eq_stackResult]
  exact getParts_stackResult value base parts.length parts root 0

theorem nodeIdOf_stackResult_cons (value : JSVal) (base len : Nat)
    (cur : JSVal) (i : Nat) (k : PathSeg) (rest : List PathSeg) :
    nodeIdOf (stackResult value base len cur i (k :: rest)) = some (base + i) := by
  cases rest with
  | nil =>
    rw [stackResult_single, nodeIdOf_setProp]
    exact nodeIdOf_copyForSet ..
  | cons k2 rr =>
    rw [stackResult_cons, nodeIdOf_setProp, nodeIdOf_setProp]
    exact nodeIdOf_copyForSet ..

/-- Any property of the rebuilt node other than the assigned path key
reads exactly as on the original node. -/
theorem getProp_stackResult_ne (value : JSVal) (base len : Nat)
    {cur : JSVal} (hpf : arrPF cur = true) (i : Nat) {k sib : PathSeg}
    (h : segKeyStr k ≠ segKeyStr sib) (rest : List PathSeg) :
    getProp (stackResult value base len cur i (k :: rest)) sib = optIndex cur sib := by
  cases rest with
  | nil =>
    rw [stackResult_single, getProp_setProp_ne h]
    exact getProp_copyForSet hpf k sib _
  | cons k2 rr =>
    rw [stackResult_cons, getProp_setProp_ne h, getProp_setProp_ne h]
    exact getProp_copyForSet hpf k sib _

/-- C3 core, generalized over the starting depth: every node the built
result has along the path is a fresh container (tag at least `base`), and
every sibling property of every such node reads as on the input. -/
theorem stackResult_fresh_and_sharing (value : JSVal) (base len : Nat) :
    ∀ (parts : List PathSeg) (cur : JSVal) (i : Nat),
      arrPF cur = true →
      (∀ k ∈ parts, Canon k) →
      (∀ j, j < parts.length →
        ∃ nid, base ≤ nid ∧
          nodeIdOf (getParts (stackResult value base len cur i parts) (parts.take j))
            = some nid)
      ∧ (∀ j (hj : j < parts.length) (s : String),
          toSeg s ≠ parts.get ⟨j, hj⟩ →
          optIndex (getParts (stackResult value base len cur i parts) (parts.take j)) (toSeg s)
            = optIndex (getParts cur (parts.take j)) (toSeg s)) := by
  intro parts
  induction parts with
  | nil =>
    intro cur i _ _
    exact ⟨fun j hj => absurd hj (by simp), fun j hj => absurd hj (by simp)⟩
  | cons k rest ih =>
    intro cur i hpf hcanon
    have hcank : Canon k := hcanon k (by simp)
    have hrest : ∀ k2 ∈ rest, Canon k2 := fun k2 hk2 => hcanon k2 (by simp [hk2])
    have hpf' : arrPF (optIndex cur k) = true := arrPF_optIndex hpf k
    have ihr := ih (optIndex cur k) (i + 1) hpf' hrest
    constructor
    · intro j hj
      cases j with
      | zero =>
        exact ⟨base + i, Nat.le_add_right base i, nodeIdOf_stackResult_cons ..⟩
      | succ j =>
        have hj' : j < rest.length := by simpa using hj
        obtain ⟨nid, hge, hid⟩ := ihr.1 j hj'
        refine ⟨nid, hge, ?_⟩
        rw [List.take_succ_cons, getParts_cons_opt,
          optIndex_container (isContainer_stackResult_cons ..) k,
          getProp_stackResult_head]
        exact hid
    · intro j hj s hs
      cases j with
      | zero =>
        have hne : segKeyStr k ≠ segKeyStr (toSeg s) :=
          (segKeyStr_ne_of_canon (canon_toSeg s) hcank (by simpa using hs)).symm
        simp only [List.take_zero]
        rw [getParts, getParts,
          optIndex_container (isContainer_stackResult_cons ..) (toSeg s),
          getProp_stackResult_ne value base len hpf i hne rest]
      | succ j =>
        have hj' : j < rest.length := by simpa using hj
        have hs' : toSeg s ≠ rest.get ⟨j, hj'⟩ := by simpa using hs
        have := ihr.2 j hj' s hs'
        rw [List.take_succ_cons, getParts_cons_opt,
          optIndex_container (isContainer_stackResult_cons ..) k,
          getProp_stackResult_head, getParts_cons_opt cur k]
        exact this

/-! ### Facts about `deleteAtPath` -/

theorem natKey_ne_empty (n : Nat) : natKey n ≠ "" := by
  intro h
  have : natDigits n = [] := congrArg String.data h
  exact natDigits_ne_nil n this

theorem joinSegs_eq_empty {segs : List PathSeg} (h : joinSegs segs = "") :
    segs = [] ∨ segs = [PathSeg.key ""] := by
  match segs with
  | [] => exact Or.inl rfl
  | [PathSeg.key s] =>
    right
    have : s = "" := h
    rw [this]
  | [PathSeg.idx n] => exact absurd h (natKey_ne_empty n)
  | k1 :: k2 :: r =>
    exfalso
    have hdot : (".").length = 1 := rfl
    have hlen : (joinSegs (k1 :: k2 :: r)).length
        = (segKeyStr k1).length + 1 + (joinStrs (segKeyStr k2 :: (r.map segKeyStr))).length := by
      simp [joinSegs, joinStrs, String.length_append, hdot]
    rw [h] at hlen
    simp at hlen
    omega

theorem getParts_append_single (cur : JSVal) (xs : List PathSeg) (k : PathSeg) :
    getParts cur (xs ++ [k]) = optIndex (getParts cur xs) k := by
  induction xs generalizing cur with
  | nil => rw [List.nil_append, getParts_cons_opt]; rfl
  | cons x r ih => rw [List.cons_append, getParts_cons_opt, getParts_cons_opt]; exact ih _

theorem isContainer_delApply (parent : JSVal) (base : Nat) (k : PathSeg) :
    isContainer (delApply (delCopy parent base) k) = true := by
  cases parent <;> cases k <;> rfl

/-- After the removal, reading the removed key on the copy gives
`undefined` — except that an array splice below the end shifts the next
element in, which the `es.length ≤ n + 1` hypothesis rules out. -/
theorem getProp_delApply_self (parent : JSVal) (base : Nat) (lastSeg : PathSeg)
    (hshift : ∀ i es ps n, parent = JSVal.vArr i es ps → lastSeg = PathSeg.idx n →
      es.length ≤ n + 1) :
    getProp (delApply (delCopy parent base) lastSeg) lastSeg = .vUndefined := by
  cases parent with
  | vArr i es ps =>
    cases lastSeg with
    | idx n =>
      have hle : es.length ≤ n + 1 := hshift i es ps n rfl rfl
      simp [delCopy, delApply, getProp, nthD_spliceRemove_last es n _ hle]
    | key s => simp [delCopy, delApply, getProp, lookupA_eraseA_self]
  | vObj i fs => cases lastSeg <;> simp [delCopy, delApply, spreadCopy, getProp, lookupA_eraseA_self]
  | vUndefined => cases lastSeg <;> simp [delCopy, delApply, spreadCopy, getProp, lookupA]
  | vNull => cases lastSeg <;> simp [delCopy, delApply, spreadCopy, getProp, lookupA]
  | vBool b => cases lastSeg <;> simp [delCopy, delApply, spreadCopy, getProp, lookupA]
  | vNum m => cases lastSeg <;> simp [delCopy, delApply, spreadCopy, getProp, lookupA]
  | vStr s => cases lastSeg <;> simp [delCopy, delApply, spreadCopy, getProp, lookupA]

/-- C4 (amended): `getAtPath (deleteAtPath s p) p` is `undefined` whenever
the addressed slot is not an array index with a later element (deleting a
non-final array index splices the array, shifting the successor into the
queried slot — see the counterexample), and the path's parent path does not
collapse to the empty string (for a path such as `".b"` the code treats the
root, rather than the root's `""` entry, as the parent).  In particular the
claim holds whenever the parent is an object, a scalar or missing, and for
array indices at or past the last element. -/
theorem c4_amended_delete_get_undefined (root : JSVal) (p : String) (base : Nat)
    (hfront : (splitPath p).dropLast ≠ [PathSeg.key ""])
    (hshift : ∀ i es ps n, delParentOf root p = JSVal.vArr i es ps →
        (splitPath p).getLast? = some (PathSeg.idx n) → es.length ≤ n + 1) :
    getAtPath (deleteAtPath root p base) p = .vUndefined := by
  have hne : splitPath p ≠ [] := splitPath_ne_nil p
  cases hl : (splitPath p).getLast? with
  | none =>
    have h2 := List.getLast?_eq_getLast (splitPath p) hne
    rw [hl] at h2
    exact nomatch h2
  | some lastSeg =>
    have hgl : (splitPath p).getLast hne = lastSeg := by
      have h2 := List.getLast?_eq_getLast (splitPath p) hne
      rw [hl] at h2
      exact (Option.some_inj.mp h2).symm
    have hdecomp : (splitPath p).dropLast ++ [lastSeg] = splitPath p := by
      rw [← hgl]
      exact List.dropLast_append_getLast hne
    have hget : getProp (delApply (delCopy (delParentOf root p) base) lastSeg) lastSeg
        = .vUndefined := by
      refine getProp_delApply_self _ base _ ?_
      intro i es ps n hpar hidx
      exact hshift i es ps n hpar (by rw [hl, hidx])
    rw [getAtPath]
    unfold deleteAtPath
    simp only [hl]
    by_cases hn : isNullish (delParentOf root p) = true
    · rw [if_pos hn]
      by_cases hj : joinSegs (splitPath p).dropLast = ""
      · have hfr : (splitPath p).dropLast = [] := by
          rcases joinSegs_eq_empty hj with h | h
          · exact h
          · exact absurd h hfront
        have hparts : splitPath p = [lastSeg] := by
          rw [← hdecomp, hfr, List.nil_append]
        have hroot : isNullish root = true := by
          have hpr : delParentOf root p = root := by rw [delParentOf, hfr]; rfl
          rwa [hpr] at hn
        rw [hparts, getParts, if_pos hroot]
      · have hpar : delParentOf root p = getParts root (splitPath p).dropLast := by
          rw [delParentOf]
          simp only [hj, if_false]
        conv_lhs => rw [← hdecomp]
        rw [getParts_append_single, optIndex, ← hpar, if_pos hn]
    · rw [if_neg hn]
      by_cases hj : joinSegs (splitPath p).dropLast = ""
      · rw [if_pos hj]
        have hfr : (splitPath p).dropLast = [] := by
          rcases joinSegs_eq_empty hj with h | h
          · exact h
          · exact absurd h hfront
        have hparts : splitPath p = [lastSeg] := by
          rw [← hdecomp, hfr, List.nil_append]
        rw [hparts, getParts_cons_opt,
          optIndex_container (isContainer_delApply ..) _]
        exact hget
      · rw [if_neg hj]
        conv_lhs => arg 2; rw [← hdecomp]
        rw [getParts_append_single, getParts_setParts,
          optIndex_container (isContainer_delApply ..) _]
        exact hget

/-- Witness for the amended C4 at a concrete input: deleting the key `"a"`
of the object `{a: 1}` makes reading `"a"` give `undefined`. -/
theorem c4_amended_delete_get_undefined_witness :
    getAtPath (deleteAtPath (JSVal.vObj 0 [("a", JSVal.vNum 1)]) "a" 1) "a"
      = JSVal.vUndefined :=
  c4_amended_delete_get_undefined (JSVal.vObj 0 [("a", JSVal.vNum 1)]) "a" 1
    (by decide)
    (by intro i es ps n h hx; exact nomatch h)

/-- C4 as stated is false on the code: deleting a non-final array index
uses `splice`, so the following element shifts into the queried index.
For the state `["x", "y"]` and path `"0"`, reading path `"0"` after
`deleteAtPath` gives `"y"`, not `undefined`. -/
theorem c4_counterexample_delete_array_index_shifts :
    getAtPath (deleteAtPath (JSVal.vArr 0 [JSVal.vStr "x", JSVal.vStr "y"] []) "0" 1) "0"
        = JSVal.vStr "y"
    ∧ JSVal.vStr "y" ≠ JSVal.vUndefined :=
  ⟨rfl, fun h => nomatch h⟩

/-! ## Claim theorems: the set/get round trip and structural sharing -/

/-- C2: for every state tree, every dot-separated path `p` and every value
`v`, reading `p` from `setAtPath state p v` returns exactly `v`
(JavaScript `===`, i.e. equality of reference-tagged trees), including
when intermediate nodes on `p` are absent or non-container values. -/
theorem c2_set_get_roundtrip (state : JSVal) (p : String) (v : JSVal) (base : Nat) :
    getAtPath (setAtPath state p v base) p = v :=
  getParts_setParts state (splitPath p) v base

/-- C3: `setAtPath` gives every ancestor node along the path a fresh
container identity — a node tag not occurring anywhere in the input tree —
while every sibling property of every ancestor (any path segment other
than the one continuing the path) reads as the very same value, reference
included, as in the input tree. -/
theorem c3_fresh_ancestors_sibling_sharing (state value : JSVal) (p : String) (base : Nat)
    (hwf : ∀ n ∈ idsIn state, n < base)
    (hjson : arrPF state = true) :
    (∀ j, j < (splitPath p).length →
      ∃ nid,
        nodeIdOf (getParts (setAtPath state p value base) ((splitPath p).take j)) = some nid
        ∧ nid ∉ idsIn state)
    ∧ (∀ j (hj : j < (splitPath p).length) (s : String),
        toSeg s ≠ (splitPath p).get ⟨j, hj⟩ →
        optIndex (getParts (setAtPath state p value base) ((splitPath p).take j)) (toSeg s)
          = optIndex (getParts state ((splitPath p).take j)) (toSeg s)) := by
  have h := stackResult_fresh_and_sharing value base (splitPath p).length (splitPath p)
    state 0 hjson (fun k hk => canon_splitPath p k hk)
  constructor
  · intro j hj
    obtain ⟨nid, hge, hid⟩ := h.1 j hj
    refine ⟨nid, ?_, ?_⟩
    · rw [setAtPath, setParts_eq_stackResult]
      exact hid
    · intro hmem
      exact absurd (hwf nid hmem) (by omega)
  · intro j hj s hs
    have h2 := h.2 j hj s hs
    rw [setAtPath, setParts_eq_stackResult]
    exact h2

/-- Witness for C3 at a concrete input: setting `"a.x"` in
`{a: {x: 1}, b: 2}` with fresh tags starting at `2`. -/
theorem c3_fresh_ancestors_sibling_sharing_witness :
    (∀ j, j < (splitPath "a.x").length →
      ∃ nid,
        nodeIdOf (getParts
          (setAtPath (JSVal.vObj 0 [("a", JSVal.vObj 1 [("x", JSVal.vNum 1)]), ("b", JSVal.vNum 2)])
            "a.x" (JSVal.vNum 9) 2)
          ((splitPath "a.x").take j)) = some nid
        ∧ nid ∉ idsIn (JSVal.vObj 0 [("a", JSVal.vObj 1 [("x", JSVal.vNum 1)]), ("b", JSVal.vNum 2)]))
    ∧ (∀ j (hj : j < (splitPath "a.x").length) (s : String),
        toSeg s ≠ (splitPath "a.x").get ⟨j, hj⟩ →
        optIndex (getParts
          (setAtPath (JSVal.vObj 0 [("a", JSVal.vObj 1 [("x", JSVal.vNum 1)]), ("b", JSVal.vNum 2)])
            "a.x" (JSVal.vNum 9) 2)
          ((splitPath "a.x").take j)) (toSeg s)
          = optIndex (getParts
              (JSVal.vObj 0 [("a", JSVal.vObj 1 [("x", JSVal.vNum 1)]), ("b", JSVal.vNum 2)])
              ((splitPath "a.x").take j)) (toSeg s)) :=
  c3_fresh_ancestors_sibling_sharing
    (JSVal.vObj 0 [("a", JSVal.vObj 1 [("x", JSVal.vNum 1)]), ("b", JSVal.vNum 2)])
    (JSVal.vNum 9) "a.x" 2 (by decide) (by decide)

theorem last_invokeEmit {α : Type} (ps : PortsState α) (port : String) (cb : CB)
    (payload : α) : (invokeEmit ps port cb payload).last = ps.last := by
  cases cb <;> rfl

theorem last_foldInvoke {α : Type} (cbs : List CB) (ps : PortsState α) (port : String)
    (payload : α) :
    (cbs.foldl (fun acc cb => invokeEmit acc port cb payload) ps).last = ps.last := by
  induction cbs generalizing ps with
  | nil => rfl
  | cons cb r ih => rw [List.foldl_cons, ih, last_invokeEmit]

/-- The last-value memory right after an emit holds the emitted payload. -/
theorem getPortSnapshot_emitPort_self {α : Type} (ps : PortsState α) (port : String)
    (payload : α) : getPortSnapshot (emitPort ps port payload) port = some payload := by
  rw [getPortSnapshot, emitPort, last_foldInvoke]
  exact lookupA_setA_self ps.last port payload

/-! ## Claim theorems: port bus and store channel -/

/-- C5 is false on the code, and the code contradicts its own "одноразовая
подписка" (one-shot subscription) documentation: when a last value already
exists for the port, the synchronous replay inside `onPort` invokes the
`oncePort` wrapper while its `off` binding is still `null`, so the wrapper
does not unsubscribe, and a later emit invokes the user callback a second
time.  Trace: emit payload 1, then `oncePort` with callback 7, then emit
payload 2 — callback 7 runs twice, with payloads 1 and 2. -/
theorem c5_oncePort_replay_then_emit_invokes_twice :
    (emitPort (oncePort (emitPort (emptyPorts Nat) "p" 1) "p" 7) "p" 2).calls
      = [(7, 1), (7, 2)] := rfl

/-- C9 as stated is false: the coordinator republishes under the
`2mqjs:`-prefixed channel, so after a state broadcast for store `"app"`
the snapshot of `"store:app:state"` is still absent while
`"2mqjs:store:app:state"` holds the state. -/
theorem c9_counterexample_channel_name :
    getPortSnapshot (handleWorkerMessage "app" (emptyPorts Nat) (.state 42))
        "store:app:state" = none
    ∧ getPortSnapshot (handleWorkerMessage "app" (emptyPorts Nat) (.state 42))
        "2mqjs:store:app:state" = some 42 :=
  ⟨rfl, rfl⟩

/-- C9 (amended): every full-state broadcast received by the coordinator
from a store subprocess is republished on the port bus under the channel
name `"2mqjs:store:<name>:state"` (the claim's `"store:<name>:state"`
lacks the `2mqjs:` prefix), so `getPortSnapshot` of that exact channel
yields the latest store state. -/
theorem c9_amended_state_republished {α : Type} (ps : PortsState α) (name : String)
    (s : α) :
    getPortSnapshot (handleWorkerMessage name ps (.state s)) (portNameState name) = some s
    ∧ portNameState name = "2mqjs:store:" ++ name ++ ":state" :=
  ⟨getPortSnapshot_emitPort_self ps (portNameState name) s, rfl⟩

/-! ## Claim theorems: task scheduler -/

theorem filter_bne_of_not_mem {l : List String} {a : String} (h : a ∉ l) :
    l.filter (fun x => x != a) = l := by
  induction l with
  | nil => rfl
  | cons x r ih =>
    have hxa : x ≠ a := fun he => h (he ▸ List.mem_cons_self x r)
    rw [List.filter_cons]
    simp only [bne_iff_ne, ne_eq, hxa, not_false_eq_true, if_true]
    rw [ih (fun hm => h (List.mem_cons_of_mem x hm))]

/-- C1 is false on the code as a universal statement, and the code
contradicts the spec's "a dependency failure propagates [to]
`runTasks`'s `Promise.all`" as well as its own comment that concurrent
callers of an in-flight task "await the completion of the first run":
when `B`'s `run` exhausts its retries, the exception thrown by
`await Promise.all(deps)` escapes `runSingle("A")`'s inner async closure
before either `resolveInflight` or `rejectInflight` has run, so the
promise returned by `runSingle("A")` never settles.  A `runTasks("main")`
call covering `A` but not `B` therefore stays pending forever instead of
rejecting (and the `finally` clearing the `running` flag never runs); `A`
is indeed never marked done. -/
theorem c1_dep_failure_leaves_runTasks_pending :
    (runTasksF 2 c1St (some "main")).2 = .pending
    ∧ "A" ∉ (runTasksF 2 c1St (some "main")).1.done
    ∧ "B" ∉ (runTasksF 2 c1St (some "main")).1.done
    ∧ (runTasksF 2 c1St (some "main")).1.running = true := by decide

/-- C8: calling `runTasks` while another invocation is still in progress
makes the second call reject immediately — the state is returned untouched,
so no task of the second batch has started and the first invocation is
unaffected. -/
theorem c8_reentrant_runTasks_rejects (fuel : Nat) (st : TaskSt) (stage : Option String)
    (h : st.running = true) :
    runTasksF fuel st stage = (st, .rejected) := by
  rw [runTasksF, if_pos h]

/-- Witness for C8 at a concrete in-progress state. -/
theorem c8_reentrant_runTasks_rejects_witness :
    runTasksF 1 ⟨[], [], [], true, fun _ => 0⟩ none
      = (⟨[], [], [], true, fun _ => 0⟩, .rejected) :=
  c8_reentrant_runTasks_rejects 1 ⟨[], [], [], true, fun _ => 0⟩ none rfl

/-- C10: running an id with no registered task does not error: `runSingle`
resolves successfully, adds the unknown id to `done` without invoking any
`run`, and afterwards — even if a task is then registered under that id —
a later `runSingle` of the id returns immediately in success with no state
change at all. -/
theorem c10_unknown_id_marked_done (fuel : Nat) (st : TaskSt) (id : String)
    (ht : lookupA st.tasks id = none) (hd : id ∉ st.done) (hi : id ∉ st.inflight)
    (hf : 0 < fuel) :
    (runSingleF fuel st id).1.done = id :: st.done
    ∧ (runSingleF fuel st id).1.runCount = st.runCount
    ∧ (runSingleF fuel st id).1.inflight = st.inflight
    ∧ (runSingleF fuel st id).1.tasks = st.tasks
    ∧ (runSingleF fuel st id).2 = .ok
    ∧ (∀ (t2 : Task) (fuel2 : Nat), t2.id = id → 0 < fuel2 →
        runSingleF fuel2 (registerTask (runSingleF fuel st id).1 t2) id
          = (registerTask (runSingleF fuel st id).1 t2, .ok)) := by
  obtain ⟨fuel, rfl⟩ : ∃ m, fuel = m + 1 := ⟨fuel - 1, by omega⟩
  have hdc : st.done.contains id = false := by
    simpa using hd
  have hic : st.inflight.contains id = false := by
    simpa using hi
  have hstep : runSingleF (fuel + 1) st id
      = ({ st with done := id :: st.done,
                   inflight := (id :: st.inflight).filter (fun x => x != id) }, .ok) := by
    rw [runSingleF]
    simp only [hdc, hic, Bool.false_eq_true, if_false, ht]
  have hfil : (id :: st.inflight).filter (fun x => x != id) = st.inflight := by
    rw [List.filter_cons]
    simp only [bne_self_eq_false, Bool.false_eq_true, if_false]
    exact filter_bne_of_not_mem hi
  rw [hstep, hfil]
  refine ⟨rfl, rfl, rfl, rfl, rfl, ?_⟩
  intro t2 fuel2 hid hf2
  obtain ⟨fuel2, rfl⟩ : ∃ m, fuel2 = m + 1 := ⟨fuel2 - 1, by omega⟩
  rw [runSingleF]
  have hmem2 : (registerTask { st with done := id :: st.done, inflight := st.inflight } t2).done.contains id = true := by
    simp [registerTask, List.contains_cons]
  rw [hmem2]
  simp

/-- Witness for C10: running the unregistered id `"x"` on the fresh
scheduler state. -/
theorem c10_unknown_id_marked_done_witness :
    (runSingleF 1 ⟨[], [], [], false, fun _ => 0⟩ "x").1.done = ["x"]
    ∧ (runSingleF 1 ⟨[], [], [], false, fun _ => 0⟩ "x").2 = .ok := by
  have h := c10_unknown_id_marked_done 1 ⟨[], [], [], false, fun _ => 0⟩ "x" rfl
    (by simp) (by simp) (by omega)
  exact ⟨h.1, h.2.2.2.2.1⟩

theorem attemptLoop_all_fail (runOk : Nat → Bool) (h : ∀ k, runOk k = false) :
    ∀ a k, attemptLoop runOk a k = (a + 1, false) := by
  intro a
  induction a with
  | zero => intro k; simp [attemptLoop, h k]
  | succ a ih => intro k; simp [attemptLoop, h k, ih (k + 1)]

theorem attemptLoop_succ_within (runOk : Nat → Bool) :
    ∀ a k, (∃ j, k ≤ j ∧ j ≤ k + a ∧ runOk j = true) →
      (attemptLoop runOk a k).2 = true := by
  intro a
  induction a with
  | zero =>
    intro k h
    obtain ⟨j, h1, h2, h3⟩ := h
    have hjk : j = k := by omega
    simp [attemptLoop, hjk ▸ h3]
  | succ a ih =>
    intro k h
    obtain ⟨j, h1, h2, h3⟩ := h
    by_cases hk : runOk k = true
    · simp [attemptLoop, hk]
    · have hkf : runOk k = false := by simpa using hk
      have hjk : j ≠ k := fun he => hk (he ▸ h3)
      have hih := ih (k + 1) ⟨j, by omega, by omega, h3⟩
      simp [attemptLoop, hkf, hih]

/-- C6: a task with retry budget `n` whose `run` always throws has `run`
invoked exactly `n + 1` times (1 + n retries), after which the failure
propagates and the covering `runTasks` batch rejects; and if instead some
attempt within the budget succeeds, the task is marked done and the batch
resolves. -/
theorem c6_retry_budget (id : String) (prio : Option Int) (wb : Option Bool)
    (runOk : Nat → Bool) (n : Nat) (hwb : wb ≠ some false) :
    ((∀ k, runOk k = false) →
      (runTasksF 2 (c6St id prio wb runOk n) none).1.runCount id = n + 1
      ∧ (runTasksF 2 (c6St id prio wb runOk n) none).2 = .rejected
      ∧ id ∉ (runTasksF 2 (c6St id prio wb runOk n) none).1.done)
    ∧ ((∃ j, j ≤ n ∧ runOk j = true) →
      (runTasksF 2 (c6St id prio wb runOk n) none).2 = .resolved
      ∧ id ∈ (runTasksF 2 (c6St id prio wb runOk n) none).1.done) := by
  constructor
  · intro hfail
    have hal : attemptLoop runOk n 0 = (n + 1, false) := attemptLoop_all_fail runOk hfail n 0
    refine ⟨?_, ?_, ?_⟩ <;>
      simp [runTasksF, runSingleF, settleBatch, c6St, sortByPrio, insertByPrio,
        stageMatch, lookupA, hwb, hal, combineAll]
  · intro hsucc
    obtain ⟨j, hj, hcj⟩ := hsucc
    have hal : (attemptLoop runOk n 0).2 = true :=
      attemptLoop_succ_within runOk n 0 ⟨j, by omega, by omega, hcj⟩
    constructor <;>
      simp [runTasksF, runSingleF, settleBatch, c6St, sortByPrio, insertByPrio,
        stageMatch, lookupA, hwb, hal, combineAll]

/-- Witness for C6: a task with `retry: 2` whose `run` always throws is
invoked exactly 3 times and the batch rejects; one whose first attempt
succeeds is marked done and the batch resolves. -/
theorem c6_retry_budget_witness :
    ((runTasksF 2 (c6St "t" none none (fun _ => false) 2) none).1.runCount "t" = 3
      ∧ (runTasksF 2 (c6St "t" none none (fun _ => false) 2) none).2 = .rejected)
    ∧ ((runTasksF 2 (c6St "t" none none (fun _ => true) 2) none).2 = .resolved
      ∧ "t" ∈ (runTasksF 2 (c6St "t" none none (fun _ => true) 2) none).1.done) := by
  have h1 := c6_retry_budget "t" none none (fun _ => false) 2 (by simp)
  have h2 := c6_retry_budget "t" none none (fun _ => true) 2 (by simp)
  have ha := h1.1 (fun k => rfl)
  have hb := h2.2 ⟨0, by omega, rfl⟩
  exact ⟨⟨ha.1, ha.2.1⟩, hb⟩

theorem attemptLoop_first_succ (runOk : Nat → Bool) (a k : Nat) (h : runOk k = true) :
    attemptLoop runOk a k = (1, true) := by
  cases a <;> simp [attemptLoop, h]

/-- Once an id is in `done`, running any single task (of any id, with any
fuel) keeps it in `done` and never invokes its `run` again. -/
theorem runSingleF_preserves_done (id : String) :
    ∀ (fuel : Nat) (st : TaskSt) (j : String), id ∈ st.done →
      id ∈ (runSingleF fuel st j).1.done
      ∧ (runSingleF fuel st j).1.runCount id = st.runCount id := by
  intro fuel
  induction fuel with
  | zero => intro st j h; exact ⟨h, rfl⟩
  | succ fuel ih =>
    intro st j h
    by_cases hdc : st.done.contains j = true
    · rw [runSingleF, if_pos hdc]; exact ⟨h, rfl⟩
    · have hj : j ∉ st.done := by simpa using hdc
      have hji : id ≠ j := fun he => hj (he ▸ h)
      by_cases hic : st.inflight.contains j = true
      · rw [runSingleF, if_neg (by simpa using hdc), if_pos hic]; exact ⟨h, rfl⟩
      · have hfold : ∀ (ds : List String) (acc : TaskSt × TOut),
            id ∈ acc.1.done →
            id ∈ (ds.foldl
                (fun (acc : TaskSt × TOut) d =>
                  ((runSingleF fuel acc.1 d).1, combineAll acc.2 (runSingleF fuel acc.1 d).2))
                acc).1.done
            ∧ (ds.foldl
                (fun (acc : TaskSt × TOut) d =>
                  ((runSingleF fuel acc.1 d).1, combineAll acc.2 (runSingleF fuel acc.1 d).2))
                acc).1.runCount id
              = acc.1.runCount id := by
          intro ds
          induction ds with
          | nil => intro acc ha; exact ⟨ha, rfl⟩
          | cons d r ihd =>
            intro acc ha
            rw [List.foldl_cons]
            have h1 := ih acc.1 d ha
            have h2 := ihd ((runSingleF fuel acc.1 d).1,
              combineAll acc.2 (runSingleF fuel acc.1 d).2) h1.1
            exact ⟨h2.1, by rw [h2.2]; exact h1.2⟩
        rw [runSingleF, if_neg (by simpa using hdc), if_neg (by simpa using hic)]
        cases hlk : lookupA st.tasks j with
        | none =>
          simp only [hlk]
          exact ⟨List.mem_cons_of_mem j h, by trivial⟩
        | some t =>
          simp only [hlk]
          have hd := hfold t.deps ({ st with inflight := j :: st.inflight }, .ok) h
          cases hdr : (t.deps.foldl
              (fun (acc : TaskSt × TOut) d =>
                ((runSingleF fuel acc.1 d).1, combineAll acc.2 (runSingleF fuel acc.1 d).2))
              ({ st with inflight := j :: st.inflight }, .ok)).2 with
          | err =>
            simp only [hdr]
            exact ⟨hd.1, hd.2⟩
          | hang =>
            simp only [hdr]
            exact ⟨hd.1, hd.2⟩
          | ok =>
            simp only [hdr]
            by_cases hwb : t.whenB = some false
            · rw [if_pos hwb]
              exact ⟨hd.1, hd.2⟩
            · rw [if_neg hwb]
              by_cases hsucc : (attemptLoop t.runOk (t.retry.getD 0)
                  ((t.deps.foldl
                    (fun (acc : TaskSt × TOut) d =>
                      ((runSingleF fuel acc.1 d).1, combineAll acc.2 (runSingleF fuel acc.1 d).2))
                    ({ st with inflight := j :: st.inflight }, .ok)).1.runCount j)).2 = true
              · rw [if_pos hsucc]
                refine ⟨List.mem_cons_of_mem t.id hd.1, ?_⟩
                show (if id = j then _ else _) = st.runCount id
                rw [if_neg hji]
                exact hd.2
              · rw [if_neg hsucc]
                refine ⟨hd.1, ?_⟩
                show (if id = j then _ else _) = st.runCount id
                rw [if_neg hji]
                exact hd.2

theorem settleBatch_done (f : TaskSt × List TOut) :
    (settleBatch f).1.done = f.1.done := by
  simp only [settleBatch]
  repeat' split
  all_goals rfl

theorem settleBatch_runCount (f : TaskSt × List TOut) :
    (settleBatch f).1.runCount = f.1.runCount := by
  simp only [settleBatch]
  repeat' split
  all_goals rfl

/-- Once an id is in `done`, a whole `runTasks` call — any stage or none —
keeps it there and never invokes its `run` again. -/
theorem runTasksF_preserves_done (id : String) (fuel : Nat) (st : TaskSt)
    (stage : Option String) (h : id ∈ st.done) :
    (runTasksF fuel st stage).1.runCount id = st.runCount id
    ∧ id ∈ (runTasksF fuel st stage).1.done := by
  by_cases hr : st.running = true
  · rw [runTasksF, if_pos hr]; exact ⟨rfl, h⟩
  · have hfold : ∀ (ts : List Task) (acc : TaskSt × List TOut),
        id ∈ acc.1.done →
        id ∈ (ts.foldl
            (fun (acc : TaskSt × List TOut) t =>
              ((runSingleF fuel acc.1 t.id).1, acc.2 ++ [(runSingleF fuel acc.1 t.id).2]))
            acc).1.done
        ∧ (ts.foldl
            (fun (acc : TaskSt × List TOut) t =>
              ((runSingleF fuel acc.1 t.id).1, acc.2 ++ [(runSingleF fuel acc.1 t.id).2]))
            acc).1.runCount id
          = acc.1.runCount id := by
      intro ts
      induction ts with
      | nil => intro acc ha; exact ⟨ha, rfl⟩
      | cons t r ihd =>
        intro acc ha
        rw [List.foldl_cons]
        have h1 := runSingleF_preserves_done id fuel acc.1 t.id ha
        have h2 := ihd ((runSingleF fuel acc.1 t.id).1,
          acc.2 ++ [(runSingleF fuel acc.1 t.id).2]) h1.1
        exact ⟨h2.1, by rw [h2.2]; exact h1.2⟩
    have hff := hfold
      (sortByPrio ((st.tasks.map Prod.snd).filter (stageMatch stage)))
      ({ st with running := true }, ([] : List TOut)) h
    rw [runTasksF, if_neg hr]
    constructor
    · rw [settleBatch_runCount]
      exact hff.2
    · rw [settleBatch_done]
      exact hff.1

/-- C7: for every task id in the `done` set, any subsequent `runTasks`
call — with any stage or with none — never re-invokes that task's `run`
(its invocation count is unchanged) and the id stays done; `resetTasks`
clears the `done` set; and after a reset the task is runnable again: for a
registered dependency-free task under that id whose condition is not false
and whose next attempt succeeds, one new `run` invocation occurs and the
id is marked done again. -/
theorem c7_done_monotonic_unless_reset (st : TaskSt) (id : String) (hdone : id ∈ st.done) :
    (∀ fuel stage,
      (runTasksF fuel st stage).1.runCount id = st.runCount id
      ∧ id ∈ (runTasksF fuel st stage).1.done)
    ∧ (resetTasks st).done = []
    ∧ (∀ t : Task, st.tasks = [(id, t)] → t.id = id → t.deps = [] →
        t.whenB ≠ some false → t.runOk (st.runCount id) = true → st.running = false →
        ∀ stage, stageMatch stage t = true →
          (runTasksF 1 (resetTasks st) stage).1.runCount id = st.runCount id + 1
          ∧ id ∈ (runTasksF 1 (resetTasks st) stage).1.done) := by
  refine ⟨fun fuel stage => runTasksF_preserves_done id fuel st stage hdone, rfl, ?_⟩
  intro t htasks hid hdeps hwb hrun hrunning stage hstage
  have hal := attemptLoop_first_succ t.runOk (t.retry.getD 0) (st.runCount id) hrun
  constructor <;>
    simp [runTasksF, runSingleF, resetTasks, settleBatch, sortByPrio, insertByPrio,
      htasks, hid, hdeps, hwb, hrunning, hstage, lookupA, hal, combineAll]

/-- Witness for C7: the task `"a"` is already done; `runTasks()` does not
re-invoke it, `resetTasks` clears `done`, and the next `runTasks()` runs it
once. -/
theorem c7_done_monotonic_unless_reset_witness :
    ((runTasksF 1 ⟨[("a", { id := "a" })], ["a"], [], false, fun _ => 0⟩ none).1.runCount "a" = 0
      ∧ "a" ∈ (runTasksF 1 ⟨[("a", { id := "a" })], ["a"], [], false, fun _ => 0⟩ none).1.done)
    ∧ (resetTasks ⟨[("a", { id := "a" })], ["a"], [], false, fun _ => 0⟩).done = []
    ∧ ((runTasksF 1 (resetTasks ⟨[("a", { id := "a" })], ["a"], [], false, fun _ => 0⟩)
          none).1.runCount "a" = 1
      ∧ "a" ∈ (runTasksF 1 (resetTasks ⟨[("a", { id := "a" })], ["a"], [], false, fun _ => 0⟩)
          none).1.done) := by
  have h := c7_done_monotonic_unless_reset
    ⟨[("a", { id := "a" })], ["a"], [], false, fun _ => 0⟩ "a" (by simp)
  exact ⟨h.1 1 none, h.2.1, h.2.2 { id := "a" } rfl rfl rfl (by simp) rfl rfl none rfl⟩

end TwoMq
